import Mathlib

/-!
Verification of the ASB CSS compressor codec.

Shallow embedding of the three source files:

* `bitbuf.js` — the `BitBuf` bit stream (chunked `Uint8Array` storage is
  modelled as the list of bits in push order; the write cursor is implicit at
  the end of the list, `pos` is the read cursor, and errors thrown by `get`
  become `Except.error`).
* `puffman.js` — the Huffman helper (`Node`, `Puffman`).
* `css-eater.js` — the structural codec (`StringEater`, `BlockType`,
  `groupBlocks`, `dump`, `restore`).

JavaScript strings that travel through the codec are modelled as lists of
character codes (`List Nat`); all tokens involved are octet-valued.
-/

/-- The bit stream of `bitbuf.js`.  `bits` is the sequence of stored bits in
push order (each entry 0 or 1), `pos` the read cursor.  The JS object also
stores `length`, which always equals the number of pushed bits, so here it is
`bits.length`. -/
structure BitBuf where
  bits : List Nat
  pos : Nat
deriving DecidableEq, Repr

/-- `BitBuf.push`: appends one bit at the end of the buffer
(`chunk[octetIndex] |= (bit & 1) << bitIndex; length += 1`).  Chunk growth is
invisible at the bit level; `bit & 1` is `bit % 2`. -/
def BitBuf.push (buf : BitBuf) (bit : Nat) : BitBuf :=
  { buf with bits := buf.bits ++ [bit % 2] }

/-- `BitBuf.get`: the bit at `index`, or the Error thrown when
`(index + 1) > this.length`. -/
def BitBuf.get (buf : BitBuf) (index : Nat) : Except String Nat :=
  if index + 1 > buf.bits.length then .error "Index error"
  else .ok (buf.bits.getD index 0)

/-- `BitBuf.writeOctet`: the loop `for i in [0..8) push(octet >> i)`,
unrolled (the bound `OCTET_SIZE = 8` is a source constant). -/
def BitBuf.writeOctet (buf : BitBuf) (octet : Nat) : BitBuf :=
  ((((((((buf.push (octet >>> 0)).push (octet >>> 1)).push
      (octet >>> 2)).push (octet >>> 3)).push (octet >>> 4)).push
      (octet >>> 5)).push (octet >>> 6)).push (octet >>> 7))

/-- The value accumulation of `BitBuf.readOctet`:
`octet |= this.get(this.pos + i) << i` for `i in [0..8)`; any `get` failure
aborts the loop before `this.pos` is touched. -/
def BitBuf.readOctetVal (buf : BitBuf) : Except String Nat :=
  match buf.get (buf.pos + 0) with
  | .error e => .error e
  | .ok b0 =>
  match buf.get (buf.pos + 1) with
  | .error e => .error e
  | .ok b1 =>
  match buf.get (buf.pos + 2) with
  | .error e => .error e
  | .ok b2 =>
  match buf.get (buf.pos + 3) with
  | .error e => .error e
  | .ok b3 =>
  match buf.get (buf.pos + 4) with
  | .error e => .error e
  | .ok b4 =>
  match buf.get (buf.pos + 5) with
  | .error e => .error e
  | .ok b5 =>
  match buf.get (buf.pos + 6) with
  | .error e => .error e
  | .ok b6 =>
  match buf.get (buf.pos + 7) with
  | .error e => .error e
  | .ok b7 =>
    .ok ((((((((0 ||| (b0 <<< 0)) ||| (b1 <<< 1)) ||| (b2 <<< 2)) |||
      (b3 <<< 3)) ||| (b4 <<< 4)) ||| (b5 <<< 5)) ||| (b6 <<< 6)) |||
      (b7 <<< 7))

/-- `BitBuf.readOctet` with the post-call state made explicit: on success the
cursor advances by 8, on the thrown error the object is untouched (the throw
happens inside `get`, before `this.pos += 8`). -/
def BitBuf.readOctetS (buf : BitBuf) : Except String Nat × BitBuf :=
  match buf.readOctetVal with
  | .ok v => (.ok v, ⟨buf.bits, buf.pos + 8⟩)
  | .error e => (.error e, buf)

/-- `BitBuf.readOctet` as a fallible state transformer. -/
def BitBuf.readOctet (buf : BitBuf) : Except String (Nat × BitBuf) :=
  match buf.readOctetS with
  | (.ok v, buf1) => .ok (v, buf1)
  | (.error e, _) => .error e

/-- `BitBuf.readBit` with the post-call state made explicit: `get(this.pos)`
throws before `this.pos += 1` runs. -/
def BitBuf.readBitS (buf : BitBuf) : Except String Nat × BitBuf :=
  match buf.get buf.pos with
  | .ok b => (.ok b, ⟨buf.bits, buf.pos + 1⟩)
  | .error e => (.error e, buf)

/-- `BitBuf.readBit` as a fallible state transformer. -/
def BitBuf.readBit (buf : BitBuf) : Except String (Nat × BitBuf) :=
  match buf.readBitS with
  | (.ok b, buf1) => .ok (b, buf1)
  | (.error e, _) => .error e

/-- `BitBuf.hasMore`: `this.pos < this.length`. -/
def BitBuf.hasMore (buf : BitBuf) : Bool :=
  buf.pos < buf.bits.length

/-- The eight bits an octet value is stored as, least significant first. -/
def octetBits (v : Nat) : List Nat :=
  [(v >>> 0) % 2, (v >>> 1) % 2, (v >>> 2) % 2, (v >>> 3) % 2,
   (v >>> 4) % 2, (v >>> 5) % 2, (v >>> 6) % 2, (v >>> 7) % 2]

theorem octetBits_length (v : Nat) : (octetBits v).length = 8 := rfl

theorem writeOctet_eq (buf : BitBuf) (v : Nat) :
    buf.writeOctet v = ⟨buf.bits ++ octetBits v, buf.pos⟩ := by
  simp [BitBuf.writeOctet, BitBuf.push, octetBits]

/-- Helper: indexing past a fixed head block. -/
theorem getD_append_skip (pre : List Nat) :
    ∀ (l : List Nat) (i d : Nat), (pre ++ l).getD (pre.length + i) d = l.getD i d := by
  induction pre with
  | nil => intro l i d; simp
  | cons a as ih =>
      intro l i d
      simpa [Nat.succ_add] using ih l i d

/-- Helper: indexing inside the left part of an append. -/
theorem getD_append_left : ∀ (l l2 : List Nat) (i d : Nat), i < l.length →
    (l ++ l2).getD i d = l.getD i d := by
  intro l
  induction l with
  | nil => intro l2 i d h; simp at h
  | cons a as ih =>
      intro l2 i d h
      cases i with
      | zero => simp
      | succ j =>
          have hj : j < as.length := by simpa using h
          simpa using ih l2 j d hj

theorem get_append (pre mid rest : List Nat) (p i : Nat) (h : i < mid.length) :
    BitBuf.get ⟨pre ++ (mid ++ rest), p⟩ (pre.length + i) = .ok (mid.getD i 0) := by
  unfold BitBuf.get
  rw [if_neg ?hbound, getD_append_skip, getD_append_left _ _ _ _ h]
  case hbound =>
    simp only [List.length_append, gt_iff_lt, not_lt]
    omega

set_option maxRecDepth 8192 in
/-- Recomposing an octet value from its stored bits, LSB first. -/
theorem or_recompose : ∀ v : Nat, v < 256 →
    ((((((((0 ||| (((v >>> 0) % 2) <<< 0)) ||| (((v >>> 1) % 2) <<< 1)) |||
      (((v >>> 2) % 2) <<< 2)) ||| (((v >>> 3) % 2) <<< 3)) |||
      (((v >>> 4) % 2) <<< 4)) ||| (((v >>> 5) % 2) <<< 5)) |||
      (((v >>> 6) % 2) <<< 6)) ||| (((v >>> 7) % 2) <<< 7)) = v := by
  decide

theorem readOctetVal_append (pre rest : List Nat) (v : Nat) (hv : v < 256) :
    BitBuf.readOctetVal ⟨pre ++ (octetBits v ++ rest), pre.length⟩ = .ok v := by
  have g0 := get_append pre (octetBits v) rest pre.length 0 (by rw [octetBits_length]; omega)
  have g1 := get_append pre (octetBits v) rest pre.length 1 (by rw [octetBits_length]; omega)
  have g2 := get_append pre (octetBits v) rest pre.length 2 (by rw [octetBits_length]; omega)
  have g3 := get_append pre (octetBits v) rest pre.length 3 (by rw [octetBits_length]; omega)
  have g4 := get_append pre (octetBits v) rest pre.length 4 (by rw [octetBits_length]; omega)
  have g5 := get_append pre (octetBits v) rest pre.length 5 (by rw [octetBits_length]; omega)
  have g6 := get_append pre (octetBits v) rest pre.length 6 (by rw [octetBits_length]; omega)
  have g7 := get_append pre (octetBits v) rest pre.length 7 (by rw [octetBits_length]; omega)
  unfold BitBuf.readOctetVal
  simp only [g0, g1, g2, g3, g4, g5, g6, g7]
  exact congrArg Except.ok (or_recompose v hv)

theorem get_error (buf : BitBuf) (i : Nat) (h : buf.bits.length < i + 1) :
    buf.get i = .error "Index error" := by
  unfold BitBuf.get
  rw [if_pos (by omega)]

theorem get_ok (buf : BitBuf) (i : Nat) (h : i + 1 ≤ buf.bits.length) :
    buf.get i = .ok (buf.bits.getD i 0) := by
  unfold BitBuf.get
  rw [if_neg (by omega)]

theorem readOctetVal_error (buf : BitBuf) (h : buf.bits.length < buf.pos + 8) :
    buf.readOctetVal = .error "Index error" := by
  unfold BitBuf.readOctetVal
  by_cases h0 : buf.bits.length < buf.pos + 0 + 1
  · rw [get_error buf (buf.pos + 0) (by omega)]
  · rw [get_ok buf (buf.pos + 0) (by omega)]
    by_cases h1 : buf.bits.length < buf.pos + 1 + 1
    · rw [get_error buf (buf.pos + 1) (by omega)]
    · rw [get_ok buf (buf.pos + 1) (by omega)]
      by_cases h2 : buf.bits.length < buf.pos + 2 + 1
      · rw [get_error buf (buf.pos + 2) (by omega)]
      · rw [get_ok buf (buf.pos + 2) (by omega)]
        by_cases h3 : buf.bits.length < buf.pos + 3 + 1
        · rw [get_error buf (buf.pos + 3) (by omega)]
        · rw [get_ok buf (buf.pos + 3) (by omega)]
          by_cases h4 : buf.bits.length < buf.pos + 4 + 1
          · rw [get_error buf (buf.pos + 4) (by omega)]
          · rw [get_ok buf (buf.pos + 4) (by omega)]
            by_cases h5 : buf.bits.length < buf.pos + 5 + 1
            · rw [get_error buf (buf.pos + 5) (by omega)]
            · rw [get_ok buf (buf.pos + 5) (by omega)]
              by_cases h6 : buf.bits.length < buf.pos + 6 + 1
              · rw [get_error buf (buf.pos + 6) (by omega)]
              · rw [get_ok buf (buf.pos + 6) (by omega)]
                rw [get_error buf (buf.pos + 7) (by omega)]

theorem readOctet_append (pre rest : List Nat) (v : Nat) (hv : v < 256) :
    BitBuf.readOctet ⟨pre ++ (octetBits v ++ rest), pre.length⟩
      = .ok (v, ⟨pre ++ (octetBits v ++ rest), pre.length + 8⟩) := by
  unfold BitBuf.readOctet BitBuf.readOctetS
  rw [readOctetVal_append pre rest v hv]

/-- C7: for every `0 ≤ v ≤ 255`, `writeOctet v` followed by `readOctet` at the
written position returns `v`, and the eight bits are stored least significant
bit first — the first bit written is the value's bit 0. -/
theorem octet_roundtrip_lsb_first : ∀ (v : Nat) (buf : BitBuf), v ≤ 255 →
    buf.pos = buf.bits.length →
    (buf.writeOctet v).readOctet
        = .ok (v, ⟨buf.bits ++ octetBits v, buf.bits.length + 8⟩) ∧
    (buf.writeOctet v).bits
        = buf.bits ++ [v % 2, (v >>> 1) % 2, (v >>> 2) % 2, (v >>> 3) % 2,
            (v >>> 4) % 2, (v >>> 5) % 2, (v >>> 6) % 2, (v >>> 7) % 2] := by
  intro v buf hv hpos
  constructor
  · rw [writeOctet_eq, hpos]
    have h := readOctet_append buf.bits [] v (by omega)
    simpa using h
  · rw [writeOctet_eq]
    rfl

/-- Witness for C7 at `v = 65` on a fresh stream, the spec's concrete
scenario. -/
theorem octet_roundtrip_lsb_first_witness :
    ((⟨[], 0⟩ : BitBuf).writeOctet 65).readOctet
        = .ok (65, ⟨[1, 0, 0, 0, 0, 0, 1, 0], 8⟩) ∧
    ((⟨[], 0⟩ : BitBuf).writeOctet 65).bits = [1, 0, 0, 0, 0, 0, 1, 0] := by
  have h := octet_roundtrip_lsb_first 65 ⟨[], 0⟩ (by decide) rfl
  exact ⟨h.1, h.2⟩

/-- C8: `readBit` returns the stored bit and advances the cursor by one
exactly when `pos < length`, and fails with the out-of-range error exactly
when `pos ≥ length`; `readOctet` fails the same way whenever fewer than 8
unread bits remain. -/
theorem readBit_readOctet_bounds : ∀ buf : BitBuf,
    (buf.pos < buf.bits.length →
      buf.readBit = .ok (buf.bits.getD buf.pos 0, ⟨buf.bits, buf.pos + 1⟩)) ∧
    (buf.bits.length ≤ buf.pos → buf.readBit = .error "Index error") ∧
    (buf.bits.length < buf.pos + 8 → buf.readOctet = .error "Index error") := by
  intro buf
  refine ⟨?_, ?_, ?_⟩
  · intro h
    unfold BitBuf.readBit BitBuf.readBitS
    rw [get_ok _ _ (by omega)]
  · intro h
    unfold BitBuf.readBit BitBuf.readBitS
    rw [get_error _ _ (by omega)]
  · intro h
    unfold BitBuf.readOctet BitBuf.readOctetS
    rw [readOctetVal_error buf h]

/-- Witness for C8: a successful bit read, a failing bit read and a failing
octet read at concrete streams. -/
theorem readBit_readOctet_bounds_witness :
    ((⟨[1, 0], 0⟩ : BitBuf).readBit = .ok (1, ⟨[1, 0], 1⟩)) ∧
    ((⟨[1], 1⟩ : BitBuf).readBit = .error "Index error") ∧
    ((⟨[1, 0], 0⟩ : BitBuf).readOctet = .error "Index error") := by
  refine ⟨?_, ?_, ?_⟩
  · exact (readBit_readOctet_bounds ⟨[1, 0], 0⟩).1 (by decide)
  · exact (readBit_readOctet_bounds ⟨[1], 1⟩).2.1 (by decide)
  · exact (readBit_readOctet_bounds ⟨[1, 0], 0⟩).2.2 (by decide)

/-- C10: a failed `readBit` or `readOctet` leaves the stream unchanged — the
error is raised inside `get`, before the cursor is advanced, so the position,
the stored bits and the length are those from before the call. -/
theorem failed_read_preserves_state : ∀ buf : BitBuf,
    (buf.bits.length ≤ buf.pos → buf.readBitS = (.error "Index error", buf)) ∧
    (buf.bits.length < buf.pos + 8 →
      buf.readOctetS = (.error "Index error", buf)) := by
  intro buf
  constructor
  · intro h
    unfold BitBuf.readBitS
    rw [get_error _ _ (by omega)]
  · intro h
    unfold BitBuf.readOctetS
    rw [readOctetVal_error buf h]

/-- Witness for C10 at concrete exhausted streams. -/
theorem failed_read_preserves_state_witness :
    ((⟨[1, 1], 2⟩ : BitBuf).readBitS = (.error "Index error", ⟨[1, 1], 2⟩)) ∧
    ((⟨[1, 1], 0⟩ : BitBuf).readOctetS = (.error "Index error", ⟨[1, 1], 0⟩)) :=
  ⟨(failed_read_preserves_state ⟨[1, 1], 2⟩).1 (by decide),
   (failed_read_preserves_state ⟨[1, 1], 0⟩).2 (by decide)⟩

/-- Modelled from the spec: `BitBuf.writeString` is called throughout the
codec (`StringEater.dump`, `Node.serialize`) but its body is not among the
provided sources; per the spec it writes "each character of `s` as one octet
(no terminator of its own — caller supplies one)".  Strings are lists of
character codes. -/
def BitBuf.writeString (buf : BitBuf) (s : List Nat) : BitBuf :=
  s.foldl (fun b c => b.writeOctet c) buf

/-- Recursion core of `readString`; the fuel only bounds the loop and is
chosen large enough that it never runs out before the stream does (each
iteration consumes eight bits or fails). -/
def BitBuf.readStringAux (delim : Nat) : Nat → BitBuf → Except String (List Nat × BitBuf)
  | 0, _ => .error "Fuel exhausted"
  | fuel + 1, buf =>
    match buf.readOctet with
    | .error e => .error e
    | .ok (o, buf1) =>
      if o = delim then .ok ([], buf1)
      else
        match BitBuf.readStringAux delim fuel buf1 with
        | .error e => .error e
        | .ok (restStr, buf2) => .ok (o :: restStr, buf2)

/-- Modelled from the spec: `BitBuf.readString` is called by
`Node.unserialize` but its body is not among the provided sources; per the
spec it reads "octets until one equals `delimiter`'s octet value, returning
the decoded string with the delimiter consumed but excluded from the
result". -/
def BitBuf.readString (buf : BitBuf) (delim : Nat) : Except String (List Nat × BitBuf) :=
  BitBuf.readStringAux delim (buf.bits.length + 1) buf

/-- The octet stream a string is stored as. -/
def stringBits : List Nat → List Nat
  | [] => []
  | c :: cs => octetBits c ++ stringBits cs

theorem stringBits_length (s : List Nat) : (stringBits s).length = 8 * s.length := by
  induction s with
  | nil => rfl
  | cons c cs ih =>
      simp [stringBits, octetBits_length, ih]
      ring

theorem writeString_eq (s : List Nat) : ∀ buf : BitBuf,
    buf.writeString s = ⟨buf.bits ++ stringBits s, buf.pos⟩ := by
  induction s with
  | nil => intro buf; simp [BitBuf.writeString, stringBits]
  | cons c cs ih =>
      intro buf
      have step : buf.writeString (c :: cs) = (buf.writeOctet c).writeString cs := rfl
      rw [step, ih, writeOctet_eq]
      simp [stringBits]

theorem readStringAux_spec (delim : Nat) (hd : delim < 256) :
    ∀ (s : List Nat), (∀ c ∈ s, c < 256 ∧ c ≠ delim) →
    ∀ (fuel : Nat), s.length + 1 ≤ fuel →
    ∀ (pre rest : List Nat),
    BitBuf.readStringAux delim fuel
        ⟨pre ++ (stringBits s ++ (octetBits delim ++ rest)), pre.length⟩
      = .ok (s, ⟨pre ++ (stringBits s ++ (octetBits delim ++ rest)),
          pre.length + (8 * s.length + 8)⟩) := by
  intro s
  induction s with
  | nil =>
      intro _ fuel hfuel pre rest
      cases fuel with
      | zero => omega
      | succ fuel =>
          unfold BitBuf.readStringAux
          rw [show (stringBits [] ++ (octetBits delim ++ rest))
              = octetBits delim ++ rest from rfl]
          rw [readOctet_append pre rest delim hd]
          simp
  | cons c cs ih =>
      intro hs fuel hfuel pre rest
      cases fuel with
      | zero => omega
      | succ fuel =>
          have hc := hs c (by simp)
          unfold BitBuf.readStringAux
          rw [show (stringBits (c :: cs) ++ (octetBits delim ++ rest))
              = octetBits c ++ (stringBits cs ++ (octetBits delim ++ rest)) by
            simp [stringBits]]
          simp only [readOctet_append pre (stringBits cs ++ (octetBits delim ++ rest)) c hc.1]
          rw [if_neg hc.2]
          have hre : pre ++ (octetBits c ++ (stringBits cs ++ (octetBits delim ++ rest)))
              = (pre ++ octetBits c) ++ (stringBits cs ++ (octetBits delim ++ rest)) := by
            simp
          have hlen : pre.length + 8 = (pre ++ octetBits c).length := by
            simp [octetBits]
          rw [hre, hlen]
          simp only [ih (fun x hx => hs x (by simp [hx])) fuel
            (by simp only [List.length_cons] at hfuel; omega)]
          have harith : (pre ++ octetBits c).length + (8 * cs.length + 8)
              = pre.length + (8 * (c :: cs).length + 8) := by
            simp [octetBits]
            omega
          rw [harith]

theorem readString_spec (delim : Nat) (hd : delim < 256) (s : List Nat)
    (hs : ∀ c ∈ s, c < 256 ∧ c ≠ delim) (pre rest : List Nat) :
    BitBuf.readString ⟨pre ++ (stringBits s ++ (octetBits delim ++ rest)), pre.length⟩ delim
      = .ok (s, ⟨pre ++ (stringBits s ++ (octetBits delim ++ rest)),
          pre.length + (8 * s.length + 8)⟩) := by
  unfold BitBuf.readString
  exact readStringAux_spec delim hd s hs _
    (by simp [stringBits_length, octetBits_length]; omega) pre rest

/-- C2: `writeString s` writes one octet per character with no terminator,
`readString delim` consumes octets up to and including the delimiter and
returns the octets before it; so for any string whose character octet values
all differ from the delimiter value, write-then-read at the written position
returns the string. -/
theorem writeString_readString_roundtrip :
    ∀ (s : List Nat) (delim : Nat) (buf : BitBuf),
    buf.pos = buf.bits.length → delim < 256 →
    (∀ c ∈ s, c < 256 ∧ c ≠ delim) →
    ((buf.writeString s).writeOctet delim).readString delim
      = .ok (s, ⟨buf.bits ++ stringBits s ++ octetBits delim,
          buf.bits.length + (8 * s.length + 8)⟩) := by
  intro s delim buf hpos hd hs
  rw [writeString_eq, writeOctet_eq, hpos]
  have h := readString_spec delim hd s hs buf.bits []
  simpa using h

/-- Witness for C2 at the two-character string "hi" with the NUL
delimiter on a fresh stream. -/
theorem writeString_readString_roundtrip_witness :
    (((⟨[], 0⟩ : BitBuf).writeString [104, 105]).writeOctet 0).readString 0
      = .ok ([104, 105], ⟨stringBits [104, 105] ++ octetBits 0, 24⟩) := by
  exact writeString_readString_roundtrip [104, 105] 0 ⟨[], 0⟩ rfl (by decide) (by decide)

/-- Sentinel constants of `puffman.js`. -/
def NULL_NODE : Nat := 0

/-- Sentinel marking an internal node with no token. -/
def NULL_TOKEN : Nat := 0x01

/-- Field delimiter of the serialized tree format. -/
def SPLIT : Nat := 0x03

/-- The `Node` class of `puffman.js`: a binary tree with a nullable token and
an occurrence counter; `nil` stands for JS `null`. -/
inductive HTree where
  | nil : HTree
  | node (token : Option (List Nat)) (occurrences : Nat) (left right : HTree) : HTree
deriving DecidableEq, Repr

/-- The occurrence counter (0 on `null`, which in JS would throw; never
reached on `null` in the modelled flows). -/
def HTree.occ : HTree → Nat
  | .nil => 0
  | .node _ o _ _ => o

/-- `Node.serialize`'s inner `buildString`: pre-order dump of the tree, one
delimiter-terminated field per node — the `NULL_NODE` octet for an absent
child, the `NULL_TOKEN` octet for an internal node, else the token string. -/
def HTree.serialize : HTree → BitBuf → BitBuf
  | .nil, buf => (buf.writeOctet NULL_NODE).writeOctet SPLIT
  | .node tok _ l r, buf =>
    let buf1 := match tok with
      | none => buf.writeOctet NULL_TOKEN
      | some tk => buf.writeString tk
    let buf2 := buf1.writeOctet SPLIT
    HTree.serialize r (HTree.serialize l buf2)

/-- Recursion core of `Node.unserialize`'s `buildTree`; fuel only bounds the
recursion depth (every call consumes at least one octet, so the stream length
bounds it).  `val.charCodeAt(0)` on the empty string is `NaN` in JS, which
compares unequal to both sentinels; `List.head?` with a `some`-comparison
models exactly that. -/
def Node.unserializeAux : Nat → BitBuf → Except String (HTree × BitBuf)
  | 0, _ => .error "Fuel exhausted"
  | fuel + 1, buf =>
    match buf.readString SPLIT with
    | .error e => .error e
    | .ok (val, buf1) =>
      if val.head? = some NULL_NODE then .ok (.nil, buf1)
      else
        match Node.unserializeAux fuel buf1 with
        | .error e => .error e
        | .ok (l, buf2) =>
          match Node.unserializeAux fuel buf2 with
          | .error e => .error e
          | .ok (r, buf3) =>
            .ok (.node (if val.head? = some NULL_TOKEN then none else some val) 0 l r, buf3)

/-- `Node.unserialize`: reads one field per node, `null` on the `NULL_NODE`
sentinel, otherwise a node whose token is `null` on the `NULL_TOKEN` sentinel
and the literal field content otherwise, then its two children. -/
def Node.unserialize (buf : BitBuf) : Except String (HTree × BitBuf) :=
  Node.unserializeAux (buf.bits.length + 1) buf

/-- The bit stream `HTree.serialize` appends. -/
def serBits : HTree → List Nat
  | .nil => octetBits NULL_NODE ++ octetBits SPLIT
  | .node none _ l r => (octetBits NULL_TOKEN ++ octetBits SPLIT) ++ (serBits l ++ serBits r)
  | .node (some tk) _ l r => (stringBits tk ++ octetBits SPLIT) ++ (serBits l ++ serBits r)

theorem serialize_eq : ∀ (t : HTree) (buf : BitBuf),
    HTree.serialize t buf = ⟨buf.bits ++ serBits t, buf.pos⟩ := by
  intro t
  induction t with
  | nil =>
      intro buf
      rw [show HTree.serialize .nil buf = (buf.writeOctet NULL_NODE).writeOctet SPLIT from rfl]
      rw [writeOctet_eq, writeOctet_eq]
      simp [serBits]
  | node tok occ l r ihl ihr =>
      intro buf
      cases tok with
      | none =>
          rw [show HTree.serialize (.node none occ l r) buf
              = HTree.serialize r (HTree.serialize l ((buf.writeOctet NULL_TOKEN).writeOctet SPLIT)) from rfl]
          rw [writeOctet_eq, writeOctet_eq, ihl, ihr]
          simp [serBits]
      | some tk =>
          rw [show HTree.serialize (.node (some tk) occ l r) buf
              = HTree.serialize r (HTree.serialize l ((buf.writeString tk).writeOctet SPLIT)) from rfl]
          rw [writeString_eq, writeOctet_eq, ihl, ihr]
          simp [serBits]

/-- Number of fields a tree serializes to (absent children included). -/
def nodeCount : HTree → Nat
  | .nil => 1
  | .node _ _ l r => 1 + nodeCount l + nodeCount r

theorem serBits_length_ge : ∀ t : HTree, nodeCount t ≤ (serBits t).length := by
  intro t
  induction t with
  | nil => simp [serBits, nodeCount, octetBits_length]
  | node tok occ l r ihl ihr =>
      cases tok with
      | none =>
          simp only [serBits, nodeCount, List.length_append, octetBits_length]
          omega
      | some tk =>
          simp only [serBits, nodeCount, List.length_append, octetBits_length,
            stringBits_length]
          omega

/-- Tokens fit in octets and avoid the three reserved sentinel byte values. -/
def goodTokenB (tk : List Nat) : Bool :=
  decide (tk ≠ []) &&
    tk.all (fun b => decide (b < 256) && decide (b ≠ NULL_NODE) &&
      decide (b ≠ NULL_TOKEN) && decide (b ≠ SPLIT))

/-- Every present token of the tree is a good token. -/
def cleanTokens : HTree → Bool
  | .nil => true
  | .node none _ l r => cleanTokens l && cleanTokens r
  | .node (some tk) _ l r => goodTokenB tk && cleanTokens l && cleanTokens r

/-- Shape and tokens of a tree, with the occurrence counters zeroed — what
`unserialize` can recover, since occurrences are not serialized. -/
def HTree.strip : HTree → HTree
  | .nil => .nil
  | .node tok _ l r => .node tok 0 l.strip r.strip

theorem goodToken_facts (tk : List Nat) (h : goodTokenB tk = true) :
    tk.head? ≠ some NULL_NODE ∧ tk.head? ≠ some NULL_TOKEN ∧
      (∀ c ∈ tk, c < 256 ∧ c ≠ SPLIT) := by
  have h2 := h
  unfold goodTokenB at h2
  simp only [Bool.and_eq_true, decide_eq_true_eq, List.all_eq_true] at h2
  obtain ⟨hne, hall⟩ := h2
  cases tk with
  | nil => exact absurd rfl hne
  | cons a tl =>
      obtain ⟨⟨⟨hlt, hn0⟩, hn1⟩, hn3⟩ := hall a (by simp)
      refine ⟨?_, ?_, ?_⟩
      · simp only [List.head?_cons, ne_eq, Option.some.injEq]
        exact hn0
      · simp only [List.head?_cons, ne_eq, Option.some.injEq]
        exact hn1
      · intro c hc
        obtain ⟨⟨⟨hclt, _⟩, _⟩, hc3⟩ := hall c hc
        exact ⟨hclt, hc3⟩

theorem unserializeAux_serBits : ∀ (t : HTree), cleanTokens t = true →
    ∀ (fuel : Nat), nodeCount t ≤ fuel → ∀ (pre rest : List Nat),
    Node.unserializeAux fuel ⟨pre ++ (serBits t ++ rest), pre.length⟩
      = .ok (t.strip, ⟨pre ++ (serBits t ++ rest),
          pre.length + (serBits t).length⟩) := by
  intro t
  induction t with
  | nil =>
      intro _ fuel hfuel pre rest
      cases fuel with
      | zero => simp [nodeCount] at hfuel
      | succ fuel =>
          unfold Node.unserializeAux
          rw [show serBits .nil ++ rest
              = stringBits [NULL_NODE] ++ (octetBits SPLIT ++ rest) by
            simp [serBits, stringBits]]
          simp only [readString_spec SPLIT (by decide) [NULL_NODE] (by decide) pre rest]
          have hcnd : ([NULL_NODE] : List Nat).head? = some NULL_NODE := rfl
          rw [if_pos hcnd]
          simp [HTree.strip, serBits, stringBits, octetBits_length]
  | node tok occ l r ihl ihr =>
      intro hclean fuel hfuel pre rest
      cases fuel with
      | zero => simp [nodeCount] at hfuel
      | succ fuel =>
          have hcl : nodeCount l ≤ fuel := by
            simp only [nodeCount] at hfuel; omega
          have hcr : nodeCount r ≤ fuel := by
            simp only [nodeCount] at hfuel; omega
          cases tok with
          | none =>
              have hcln : cleanTokens l = true ∧ cleanTokens r = true := by
                have h2 := hclean
                simp only [cleanTokens, Bool.and_eq_true] at h2
                exact h2
              unfold Node.unserializeAux
              rw [show serBits (.node none occ l r) ++ rest
                  = stringBits [NULL_TOKEN]
                      ++ (octetBits SPLIT ++ (serBits l ++ (serBits r ++ rest))) by
                simp [serBits, stringBits]]
              simp only [readString_spec SPLIT (by decide) [NULL_TOKEN] (by decide) pre
                (serBits l ++ (serBits r ++ rest))]
              have hcnd0 : ¬ (([NULL_TOKEN] : List Nat).head? = some NULL_NODE) := by decide
              rw [if_neg hcnd0]
              have hb1 : pre ++ (stringBits [NULL_TOKEN]
                    ++ (octetBits SPLIT ++ (serBits l ++ (serBits r ++ rest))))
                  = (pre ++ (stringBits [NULL_TOKEN] ++ octetBits SPLIT))
                      ++ (serBits l ++ (serBits r ++ rest)) := by
                simp
              have hp1 : pre.length + (8 * [NULL_TOKEN].length + 8)
                  = (pre ++ (stringBits [NULL_TOKEN] ++ octetBits SPLIT)).length := by
                simp only [List.length_append, stringBits_length, octetBits_length,
                  List.length_cons, List.length_nil]
              rw [hb1, hp1]
              simp only [ihl hcln.1 fuel hcl]
              have hb2 : (pre ++ (stringBits [NULL_TOKEN] ++ octetBits SPLIT))
                    ++ (serBits l ++ (serBits r ++ rest))
                  = ((pre ++ (stringBits [NULL_TOKEN] ++ octetBits SPLIT)) ++ serBits l)
                      ++ (serBits r ++ rest) := by
                simp
              have hp2 : (pre ++ (stringBits [NULL_TOKEN] ++ octetBits SPLIT)).length
                    + (serBits l).length
                  = ((pre ++ (stringBits [NULL_TOKEN] ++ octetBits SPLIT))
                      ++ serBits l).length := by
                simp only [List.length_append]
              rw [hb2, hp2]
              simp only [ihr hcln.2 fuel hcr]
              have hcnd1 : (([NULL_TOKEN] : List Nat).head? = some NULL_TOKEN) := rfl
              rw [if_pos hcnd1]
              have hfin : ((pre ++ (stringBits [NULL_TOKEN] ++ octetBits SPLIT))
                    ++ serBits l).length + (serBits r).length
                  = pre.length + (serBits (.node none occ l r)).length := by
                simp only [List.length_append, stringBits_length, octetBits_length,
                  serBits, List.length_cons, List.length_nil]
                omega
              rw [hfin]
              rfl
          | some tk =>
              have hcln : (goodTokenB tk = true ∧ cleanTokens l = true)
                  ∧ cleanTokens r = true := by
                have h2 := hclean
                simp only [cleanTokens, Bool.and_eq_true] at h2
                exact h2
              obtain ⟨hh0, hh1, hck⟩ := goodToken_facts tk hcln.1.1
              unfold Node.unserializeAux
              rw [show serBits (.node (some tk) occ l r) ++ rest
                  = stringBits tk
                      ++ (octetBits SPLIT ++ (serBits l ++ (serBits r ++ rest))) by
                simp [serBits, stringBits]]
              simp only [readString_spec SPLIT (by decide) tk hck pre
                (serBits l ++ (serBits r ++ rest))]
              rw [if_neg hh0]
              have hb1 : pre ++ (stringBits tk
                    ++ (octetBits SPLIT ++ (serBits l ++ (serBits r ++ rest))))
                  = (pre ++ (stringBits tk ++ octetBits SPLIT))
                      ++ (serBits l ++ (serBits r ++ rest)) := by
                simp
              have hp1 : pre.length + (8 * tk.length + 8)
                  = (pre ++ (stringBits tk ++ octetBits SPLIT)).length := by
                simp only [List.length_append, stringBits_length, octetBits_length]
              rw [hb1, hp1]
              simp only [ihl hcln.1.2 fuel hcl]
              have hb2 : (pre ++ (stringBits tk ++ octetBits SPLIT))
                    ++ (serBits l ++ (serBits r ++ rest))
                  = ((pre ++ (stringBits tk ++ octetBits SPLIT)) ++ serBits l)
                      ++ (serBits r ++ rest) := by
                simp
              have hp2 : (pre ++ (stringBits tk ++ octetBits SPLIT)).length
                    + (serBits l).length
                  = ((pre ++ (stringBits tk ++ octetBits SPLIT)) ++ serBits l).length := by
                simp only [List.length_append]
              rw [hb2, hp2]
              simp only [ihr hcln.2 fuel hcr]
              rw [if_neg hh1]
              have hfin : ((pre ++ (stringBits tk ++ octetBits SPLIT))
                    ++ serBits l).length + (serBits r).length
                  = pre.length + (serBits (.node (some tk) occ l r)).length := by
                simp only [List.length_append, stringBits_length, octetBits_length,
                  serBits]
                omega
              rw [hfin]
              rfl

/-- The hypothesis class of C3: every internal (token-less) node has two
children, every leaf carries a non-empty token avoiding the reserved byte
values 0x00, 0x01, 0x03. -/
def wfTree : HTree → Bool
  | .nil => true
  | .node none _ l r =>
      decide (l ≠ .nil) && decide (r ≠ .nil) && wfTree l && wfTree r
  | .node (some tk) _ l r => goodTokenB tk && decide (l = .nil) && decide (r = .nil)

theorem wfTree_clean : ∀ t : HTree, wfTree t = true → cleanTokens t = true := by
  intro t
  induction t with
  | nil => intro _; rfl
  | node tok occ l r ihl ihr =>
      cases tok with
      | none =>
          intro h
          simp only [wfTree, Bool.and_eq_true] at h
          simp only [cleanTokens, Bool.and_eq_true]
          exact ⟨ihl h.1.2, ihr h.2⟩
      | some tk =>
          intro h
          simp only [wfTree, Bool.and_eq_true, decide_eq_true_eq] at h
          simp only [cleanTokens, Bool.and_eq_true]
          refine ⟨⟨h.1.1, ?_⟩, ?_⟩
          · rw [h.1.2]; rfl
          · rw [h.2]; rfl

/-- C3: serializing a well-formed Huffman tree pre-order into a fresh stream
and deserializing it back returns a tree of identical shape, identical leaf
tokens and null tokens at internal nodes (occurrence counters are not
serialized, so they come back as zero — `HTree.strip`). -/
theorem tree_serialize_roundtrip : ∀ t : HTree, wfTree t = true →
    (Node.unserialize (HTree.serialize t ⟨[], 0⟩)).map Prod.fst = .ok t.strip := by
  intro t hwf
  rw [serialize_eq]
  unfold Node.unserialize
  have h := unserializeAux_serBits t (wfTree_clean t hwf)
      ((serBits t).length + 1) (by have := serBits_length_ge t; omega) [] []
  simp only [List.nil_append, List.append_nil, List.length_nil, Nat.zero_add] at h ⊢
  rw [h]
  rfl

/-- Witness for C3 at the two-leaf tree the example stylesheet produces. -/
theorem tree_serialize_roundtrip_witness :
    (Node.unserialize (HTree.serialize
        (.node none 2 (.node (some [101]) 1 .nil .nil)
          (.node (some [99, 111, 108, 111, 114]) 1 .nil .nil)) ⟨[], 0⟩)).map Prod.fst
      = .ok (.node none 0 (.node (some [101]) 0 .nil .nil)
          (.node (some [99, 111, 108, 111, 114]) 0 .nil .nil)) :=
  tree_serialize_roundtrip
    (.node none 2 (.node (some [101]) 1 .nil .nil)
      (.node (some [99, 111, 108, 111, 114]) 1 .nil .nil)) (by decide)

/-- C4 counterexample: the decoder classifies a field by its FIRST byte only.
The field content `[0x00, 0x41]` is not the `ABSENT` sentinel alone, yet the
node comes back absent (`nil`) instead of a node carrying the literal
content, contradicting both "exactly when ... alone" and the "every other
field content" clause of the claim. -/
theorem unserialize_first_byte_counterexample :
    (Node.unserialize ⟨stringBits [0, 65] ++ octetBits SPLIT, 0⟩).map Prod.fst
        = .ok HTree.nil
      ∧ ([0, 65] : List Nat) ≠ [NULL_NODE] := by
  constructor
  · rfl
  · decide

/-- C4 (amended): during tree deserialization a delimited field is treated as
an absent node exactly when its first byte is the `ABSENT` sentinel 0x00, and
as an internal node with null token exactly when its first byte is the
`INTERNAL` sentinel 0x01 (and is not 0x00); for every other field content —
including the empty field — the created node's token is the entire literal
field content.  Stated over a stream holding the field, its delimiter and two
absent-child fields. -/
theorem unserialize_field_classification : ∀ (val : List Nat),
    (∀ b ∈ val, b < 256 ∧ b ≠ SPLIT) →
    (Node.unserialize ⟨stringBits val
        ++ (octetBits SPLIT ++ (serBits .nil ++ (serBits .nil ++ []))), 0⟩).map Prod.fst
      = .ok (if val.head? = some NULL_NODE then HTree.nil
             else HTree.node (if val.head? = some NULL_TOKEN then none else some val)
               0 .nil .nil) := by
  intro val hv
  unfold Node.unserialize
  unfold Node.unserializeAux
  have hrs := readString_spec SPLIT (by decide) val hv []
      (serBits .nil ++ (serBits .nil ++ []))
  simp only [List.nil_append, List.length_nil, Nat.zero_add] at hrs
  simp only [hrs]
  by_cases h0 : val.head? = some NULL_NODE
  · rw [if_pos h0, if_pos h0]
    rfl
  · rw [if_neg h0, if_neg h0]
    have hb1 : stringBits val
          ++ (octetBits SPLIT ++ (serBits HTree.nil ++ (serBits HTree.nil ++ [])))
        = (stringBits val ++ octetBits SPLIT)
            ++ (serBits HTree.nil ++ (serBits HTree.nil ++ [])) := by
      simp
    have hp1 : 8 * val.length + 8 = (stringBits val ++ octetBits SPLIT).length := by
      simp only [List.length_append, stringBits_length, octetBits_length]
    rw [hb1, hp1]
    have hfl : 1 ≤ ((stringBits val ++ octetBits SPLIT)
        ++ (serBits HTree.nil ++ (serBits HTree.nil ++ []))).length := by
      simp [stringBits_length, octetBits_length, serBits]
    simp only [unserializeAux_serBits HTree.nil rfl
      ((stringBits val ++ octetBits SPLIT)
        ++ (serBits HTree.nil ++ (serBits HTree.nil ++ []))).length
      (by exact hfl) (stringBits val ++ octetBits SPLIT) (serBits HTree.nil ++ [])]
    have hb2 : (stringBits val ++ octetBits SPLIT)
          ++ (serBits HTree.nil ++ (serBits HTree.nil ++ []))
        = ((stringBits val ++ octetBits SPLIT) ++ serBits HTree.nil)
            ++ (serBits HTree.nil ++ []) := by
      simp
    have hp2 : (stringBits val ++ octetBits SPLIT).length + (serBits HTree.nil).length
        = ((stringBits val ++ octetBits SPLIT) ++ serBits HTree.nil).length := by
      simp only [List.length_append]
    rw [hb2, hp2]
    have hfl2 : 1 ≤ (((stringBits val ++ octetBits SPLIT) ++ serBits HTree.nil)
        ++ (serBits HTree.nil ++ [])).length := by
      simp [stringBits_length, octetBits_length, serBits]
    simp only [unserializeAux_serBits HTree.nil rfl
      (((stringBits val ++ octetBits SPLIT) ++ serBits HTree.nil)
        ++ (serBits HTree.nil ++ [])).length
      (by exact hfl2)
      ((stringBits val ++ octetBits SPLIT) ++ serBits HTree.nil) []]
    rfl

/-- Witness for the amended C4 at the ordinary field content "AB". -/
theorem unserialize_field_classification_witness :
    (Node.unserialize ⟨stringBits [65, 66]
        ++ (octetBits SPLIT ++ (serBits .nil ++ (serBits .nil ++ []))), 0⟩).map Prod.fst
      = .ok (HTree.node (some [65, 66]) 0 .nil .nil) :=
  unserialize_field_classification [65, 66] (by decide)

/-- `Puffman.see`: JS string-keyed objects preserve insertion order, so the
frequency table is an insertion-ordered association list; a fresh token is
appended with count 1, an existing token's count is bumped in place. -/
def Puffman.see (occ : List (List Nat × Nat)) (token : List Nat) :
    List (List Nat × Nat) :=
  if occ.any (fun p => p.1 = token) then
    occ.map (fun p => if p.1 = token then (p.1, p.2 + 1) else p)
  else occ ++ [(token, 1)]

/-- One step of the stable descending insertion: the element being inserted
comes from an earlier position, so it goes in front of the first entry whose
count it matches or exceeds. -/
def insertDesc (x : HTree) : List HTree → List HTree
  | [] => [x]
  | y :: ys => if y.occ ≤ x.occ then x :: y :: ys else y :: insertDesc x ys

/-- The stable sort by descending occurrence count, i.e. the behaviour
ECMAScript guarantees for `base.sort((a, b) => b.occurrences - a.occurrences)`
(`Array.prototype.sort` is required to be stable and consistent with the
comparator; the comparator orders by descending occurrences). -/
def sortDesc : List HTree → List HTree
  | [] => []
  | x :: xs => insertDesc x (sortDesc xs)

/-- The `while (base.length > 1)` merge loop of `Puffman.buildTree`,
parameterized by the sort routine the engine supplies; fuel only bounds the
loop (each pass shrinks the working set by one).  Each pass sorts, pops the
last two entries as left and right child of a fresh internal node whose
count is their sum, and pushes that node at the end. -/
def Puffman.buildTreeLoopWith (srt : List HTree → List HTree) :
    Nat → List HTree → List HTree
  | 0, base => base
  | fuel + 1, base =>
    if 1 < base.length then
      match (srt base).getLast? with
      | none => srt base
      | some l =>
        match ((srt base).dropLast).getLast? with
        | none => srt base
        | some r =>
          Puffman.buildTreeLoopWith srt fuel
            (((srt base).dropLast).dropLast
              ++ [HTree.node none (l.occ + r.occ) l r])
    else base

/-- `Puffman.buildTree` with the sort routine explicit: leaves are created in
table order, merged until one root remains; `base[0]` of an empty working set
is JS `undefined`, modelled as `nil`. -/
def Puffman.buildTreeWith (srt : List HTree → List HTree)
    (occ : List (List Nat × Nat)) : HTree :=
  let base := occ.map (fun p => HTree.node (some p.1) p.2 .nil .nil)
  (Puffman.buildTreeLoopWith srt base.length base).headD .nil

/-- `Puffman.buildTree` with the stable sort every modern engine provides. -/
def Puffman.buildTree (occ : List (List Nat × Nat)) : HTree :=
  Puffman.buildTreeWith sortDesc occ

/-- `Puffman.buildMapToBin`'s `walk`: tokens are recorded in walk order with
the accumulated path, `0` for a left edge and `1` for a right edge (the JS
code accumulates the characters '0'/'1'; bits are used directly here).
Walking a `null` child would throw in JS; it is unreachable from trees built
by `buildTree` and here yields no entry. -/
def Puffman.buildMapToBin : HTree → List Nat → List (List Nat × List Nat)
  | .nil, _ => []
  | .node (some tk) _ _ _, pfx => [(tk, pfx)]
  | .node none _ l r, pfx =>
      Puffman.buildMapToBin l (pfx ++ [0]) ++ Puffman.buildMapToBin r (pfx ++ [1])

/-- Recursion core of `Puffman.findToken`: read one bit, descend right on 1
and left on 0, stop at the first node carrying a token.  Stepping into a
`null` child and reading its `token` throws a TypeError in JS, modelled as an
error; fuel only bounds the loop (each pass consumes one bit or fails). -/
def Puffman.findTokenAux : Nat → HTree → BitBuf → Except String (List Nat × BitBuf)
  | 0, _, _ => .error "Fuel exhausted"
  | fuel + 1, t, buf =>
    match buf.readBit with
    | .error e => .error e
    | .ok (dir, buf1) =>
      match t with
      | .nil => .error "TypeError: cannot read property of null"
      | .node _ _ l r =>
        match (if dir ≠ 0 then r else l) with
        | .nil => .error "TypeError: cannot read property of null"
        | .node none o l2 r2 => Puffman.findTokenAux fuel (.node none o l2 r2) buf1
        | .node (some tk) _ _ _ => .ok (tk, buf1)

/-- `Puffman.findToken` reading from a `BitBuf` (the `next` callback of the
source is `() => this.bitbuf.readBit()` at every call site). -/
def Puffman.findToken (t : HTree) (buf : BitBuf) : Except String (List Nat × BitBuf) :=
  Puffman.findTokenAux (buf.bits.length + 1) t buf

/-- Bool test for "c1 is an initial segment of c2". -/
def codeLeads : List Nat → List Nat → Bool
  | [], _ => true
  | _ :: _, [] => false
  | a :: as, b :: bs => a == b && codeLeads as bs

theorem codeLeads_append_ne : ∀ (p : List Nat) (a b : Nat) (s1 s2 : List Nat),
    a ≠ b → codeLeads (p ++ a :: s1) (p ++ b :: s2) = false := by
  intro p
  induction p with
  | nil =>
      intro a b s1 s2 hab
      simp [codeLeads, hab]
  | cons x xs ih =>
      intro a b s1 s2 hab
      simp [codeLeads, ih a b s1 s2 hab]

theorem mapToBin_prefix : ∀ (t : HTree) (pfx : List Nat) (e : List Nat × List Nat),
    e ∈ Puffman.buildMapToBin t pfx → ∃ suf, e.2 = pfx ++ suf := by
  intro t
  induction t with
  | nil => intro pfx e he; simp [Puffman.buildMapToBin] at he
  | node tok occ l r ihl ihr =>
      cases tok with
      | some tk =>
          intro pfx e he
          simp only [Puffman.buildMapToBin, List.mem_singleton] at he
          exact ⟨[], by rw [he]; simp⟩
      | none =>
          intro pfx e he
          simp only [Puffman.buildMapToBin, List.mem_append] at he
          cases he with
          | inl hl =>
              obtain ⟨suf, hsuf⟩ := ihl (pfx ++ [0]) e hl
              exact ⟨0 :: suf, by rw [hsuf]; simp⟩
          | inr hr =>
              obtain ⟨suf, hsuf⟩ := ihr (pfx ++ [1]) e hr
              exact ⟨1 :: suf, by rw [hsuf]; simp⟩

theorem mapToBin_prefix_free : ∀ (t : HTree) (pfx : List Nat)
    (e1 e2 : List Nat × List Nat),
    e1 ∈ Puffman.buildMapToBin t pfx → e2 ∈ Puffman.buildMapToBin t pfx →
    e1.1 ≠ e2.1 → codeLeads e1.2 e2.2 = false := by
  intro t
  induction t with
  | nil => intro pfx e1 e2 h1 h2 hne; simp [Puffman.buildMapToBin] at h1
  | node tok occ l r ihl ihr =>
      cases tok with
      | some tk =>
          intro pfx e1 e2 h1 h2 hne
          simp only [Puffman.buildMapToBin, List.mem_singleton] at h1 h2
          rw [h1, h2] at hne
          exact absurd rfl hne
      | none =>
          intro pfx e1 e2 h1 h2 hne
          simp only [Puffman.buildMapToBin, List.mem_append] at h1 h2
          cases h1 with
          | inl h1l =>
              cases h2 with
              | inl h2l => exact ihl (pfx ++ [0]) e1 e2 h1l h2l hne
              | inr h2r =>
                  obtain ⟨s1, hs1⟩ := mapToBin_prefix l (pfx ++ [0]) e1 h1l
                  obtain ⟨s2, hs2⟩ := mapToBin_prefix r (pfx ++ [1]) e2 h2r
                  rw [hs1, hs2]
                  rw [show (pfx ++ [0]) ++ s1 = pfx ++ 0 :: s1 by simp]
                  rw [show (pfx ++ [1]) ++ s2 = pfx ++ 1 :: s2 by simp]
                  exact codeLeads_append_ne pfx 0 1 s1 s2 (by decide)
          | inr h1r =>
              cases h2 with
              | inl h2l =>
                  obtain ⟨s1, hs1⟩ := mapToBin_prefix r (pfx ++ [1]) e1 h1r
                  obtain ⟨s2, hs2⟩ := mapToBin_prefix l (pfx ++ [0]) e2 h2l
                  rw [hs1, hs2]
                  rw [show (pfx ++ [1]) ++ s1 = pfx ++ 1 :: s1 by simp]
                  rw [show (pfx ++ [0]) ++ s2 = pfx ++ 0 :: s2 by simp]
                  exact codeLeads_append_ne pfx 1 0 s1 s2 (by decide)
              | inr h2r => exact ihr (pfx ++ [1]) e1 e2 h1r h2r hne

/-- C5: for a frequency table with at least two distinct observed tokens, the
token-to-bitstring map derived from the built Huffman tree is prefix-free: no
token's code is an initial segment (in particular, a duplicate) of a
different token's code. -/
theorem huffman_map_prefix_free : ∀ (occ : List (List Nat × Nat)),
    2 ≤ (occ.map Prod.fst).dedup.length →
    ∀ e1 ∈ Puffman.buildMapToBin (Puffman.buildTree occ) [],
    ∀ e2 ∈ Puffman.buildMapToBin (Puffman.buildTree occ) [],
    e1.1 ≠ e2.1 → codeLeads e1.2 e2.2 = false := by
  intro occ _ e1 h1 e2 h2 hne
  exact mapToBin_prefix_free (Puffman.buildTree occ) [] e1 e2 h1 h2 hne

/-- Witness for C5 at the two-token table observing "a" and "b" once each. -/
theorem huffman_map_prefix_free_witness :
    2 ≤ ((([([97], 1), ([98], 1)] : List (List Nat × Nat)).map Prod.fst).dedup).length ∧
    (∀ e1 ∈ Puffman.buildMapToBin (Puffman.buildTree [([97], 1), ([98], 1)]) [],
     ∀ e2 ∈ Puffman.buildMapToBin (Puffman.buildTree [([97], 1), ([98], 1)]) [],
     e1.1 ≠ e2.1 → codeLeads e1.2 e2.2 = false) :=
  ⟨by decide, huffman_map_prefix_free [([97], 1), ([98], 1)] (by decide)⟩

/-- C6 evaluated at the failing input, a table with the single observed token
"a": the built tree is the expected one-leaf tree and the code map does give
the token a (zero-length) code, but decoding the emitted bits fails — with
the empty emitted bit string `findToken` immediately reads past the stream,
and with any following bit present it steps from the root leaf into a null
child and dies reading its token; it never returns the token. -/
theorem single_token_decode_fails :
    Puffman.buildTree (Puffman.see [] [97]) = .node (some [97]) 1 .nil .nil ∧
    Puffman.buildMapToBin (Puffman.buildTree (Puffman.see [] [97])) [] = [([97], [])] ∧
    Puffman.findToken (Puffman.buildTree (Puffman.see [] [97])) ⟨[], 0⟩
      = .error "Index error" ∧
    Puffman.findToken (Puffman.buildTree (Puffman.see [] [97])) ⟨[0], 0⟩
      = .error "TypeError: cannot read property of null" :=
  ⟨rfl, rfl, rfl, rfl⟩

/-- The escape token of the grammar.  The source writes it as the JS string
literal '\e'; backslash-e is not a recognized escape in JavaScript, so the
literal denotes the one-character string "e" (code 101). -/
def ESC : List Nat := [101]

/-- A declaration entry of a rule: either a real declaration (the only kind
the codec encodes; others, e.g. comments, are skipped by the
`type !== 'declaration'` test). -/
inductive Declaration where
  | decl (property value : List Nat)
  | comment
deriving DecidableEq, Repr

/-- A CSS rule: selectors and declarations. -/
structure CRule where
  selectors : List (List Nat)
  declarations : List Declaration
deriving DecidableEq, Repr

/-- A top-level entry of the stylesheet AST as the codec consumes it: a plain
rule, a media rule, or any other node (carried as the minified text the
external `css.stringify` produces for it — the minifier itself is outside
the core). -/
inductive TopRule where
  | rule (r : CRule)
  | media (query : List Nat) (rules : List CRule)
  | other (contents : List Nat)
deriving DecidableEq, Repr

/-- A grouped block: every rule lives in a (possibly empty-query) media
block, everything else is a raw text block. -/
inductive Block where
  | media (query : List Nat) (rules : List CRule)
  | raw (contents : List Nat)
deriving DecidableEq, Repr

/-- `groupBlocks`: consecutive top-level plain rules are folded into the
trailing empty-query media block when there is one, explicit media rules
pass through, other nodes become raw blocks unless their minified text is
empty (falsy). -/
def groupBlocks (ast : List TopRule) : List Block :=
  ast.foldl (fun blocks tr =>
    match tr with
    | .rule ru =>
      match blocks.getLast? with
      | some (Block.media q rs) =>
          if q = [] then blocks.dropLast ++ [Block.media [] (rs ++ [ru])]
          else blocks ++ [Block.media [] [ru]]
      | _ => blocks ++ [Block.media [] [ru]]
    | .media q rs => blocks ++ [Block.media q rs]
    | .other contents =>
        if contents = [] then blocks else blocks ++ [Block.raw contents]) []

/-- The frequency pass of `Prop.loadFromAst`: for every media block, observe
each rule's declaration properties and then the escape token once per
rule. -/
def collectFreqs (blocks : List Block) : List (List Nat × Nat) :=
  blocks.foldl (fun occ b =>
    match b with
    | .media _ rules =>
        rules.foldl (fun occ ru =>
          Puffman.see
            (ru.declarations.foldl (fun occ d =>
              match d with
              | .decl p _ => Puffman.see occ p
              | .comment => occ) occ)
            ESC) occ
    | .raw _ => occ) []

/-- `StringEater.dump`: the string's octets followed by a NUL octet. -/
def StringEater.dump (s : List Nat) (buf : BitBuf) : BitBuf :=
  (buf.writeString s).writeOctet 0

/-- `StringEater.eat`: read octets until a NUL octet and return what came
before it — exactly `readString` with the NUL delimiter. -/
def StringEater.eat (buf : BitBuf) : Except String (List Nat × BitBuf) :=
  buf.readString 0

/-- The three block type tags. -/
inductive BType where
  | media
  | raw
  | endMarker
deriving DecidableEq, Repr

/-- `BlockType.dump`: first bit set on the end marker, second bit set on a
media block. -/
def BlockType.dump (t : BType) (buf : BitBuf) : BitBuf :=
  (buf.push (if t = .endMarker then 1 else 0)).push (if t = .media then 1 else 0)

/-- `BlockType.eat`: two bits; the first set means end (second ignored), else
the second distinguishes media from raw. -/
def BlockType.eat (buf : BitBuf) : Except String (BType × BitBuf) :=
  match buf.readBit with
  | .error e => .error e
  | .ok (b1, buf1) =>
    match buf1.readBit with
    | .error e => .error e
    | .ok (b2, buf2) =>
      .ok (if b1 ≠ 0 then (.endMarker, buf2)
           else if b2 ≠ 0 then (.media, buf2) else (.raw, buf2))

/-- First-match lookup in the code map (tokens inserted by the tree walk are
distinct, so this agrees with JS property lookup). -/
def lookupMap : List (List Nat × List Nat) → List Nat → Option (List Nat)
  | [], _ => none
  | (k, v) :: rest, t => if k = t then some v else lookupMap rest t

/-- `Prop.dump`: push the mapped code's bits; a token without a code is the
JS `for..of` over `undefined`, a TypeError. -/
def PropEater.dump (map : List (List Nat × List Nat)) (token : List Nat)
    (buf : BitBuf) : Except String BitBuf :=
  match lookupMap map token with
  | none => .error "TypeError: token has no code"
  | some bin => .ok (bin.foldl (fun b bit => b.push bit) buf)

/-- `Prop.serializePreamble`: `this.puffman.tree.serialize(bitbuf)`; with no
observed token the tree is `undefined` and the call throws. -/
def PropEater.serializePreamble (tree : HTree) (buf : BitBuf) : Except String BitBuf :=
  match tree with
  | .nil => .error "TypeError: cannot read property of undefined"
  | t => .ok (HTree.serialize t buf)

/-- The emission pass of `dump`, after the tree and map are fixed: preamble,
then per block the 2-bit tag and its payload, then the end tag.  (In the
no-token case JS dies one line earlier, inside `buildMapToBin`'s walk over
`undefined`; the model surfaces the same abort through the preamble.) -/
def emitAll (tree : HTree) (blocks : List Block) (buf : BitBuf) :
    Except String BitBuf :=
  let map := Puffman.buildMapToBin tree []
  match PropEater.serializePreamble tree buf with
  | Except.error e => Except.error e
  | Except.ok buf0 =>
    match blocks.foldlM (fun (buf : BitBuf) (b : Block) =>
      match b with
      | Block.media q rules =>
          let buf1 := BlockType.dump .media buf
          let buf2 := StringEater.dump q buf1
          match rules.foldlM (fun (buf : BitBuf) (ru : CRule) =>
            let buf3 := ru.selectors.foldl (fun b s => StringEater.dump s b) buf
            let buf4 := StringEater.dump ESC buf3
            match ru.declarations.foldlM (fun (buf : BitBuf) (d : Declaration) =>
              match d with
              | Declaration.decl p v =>
                  match PropEater.dump map p buf with
                  | Except.error e => Except.error e
                  | Except.ok buf5 => Except.ok (StringEater.dump v buf5)
              | Declaration.comment => Except.ok buf) buf4 with
            | Except.error e => Except.error e
            | Except.ok buf6 => PropEater.dump map ESC buf6) buf2 with
          | Except.error e => Except.error e
          | Except.ok buf7 => Except.ok (StringEater.dump ESC buf7)
      | Block.raw c =>
          Except.ok (StringEater.dump c (BlockType.dump .raw buf))) buf0 with
    | Except.error e => Except.error e
    | Except.ok buf8 => Except.ok (BlockType.dump .endMarker buf8)

/-- `dump` with the engine's sort routine explicit: group, collect
frequencies, build the tree and map, then emit. -/
def dumpWith (srt : List HTree → List HTree) (ast : List TopRule) (buf : BitBuf) :
    Except String BitBuf :=
  emitAll (Puffman.buildTreeWith srt (collectFreqs (groupBlocks ast)))
    (groupBlocks ast) buf

/-- `dump` of `css-eater.js` (stable engine sort). -/
def dump (ast : List TopRule) (buf : BitBuf) : Except String BitBuf :=
  dumpWith sortDesc ast buf

/-- The selector loop of `restore`: read NUL-terminated selector strings
until the escape token; fuel bounds the loop (each pass consumes at least one
octet or fails). -/
def readSelectors : Nat → BitBuf → Except String (List (List Nat) × BitBuf)
  | 0, _ => .error "Fuel exhausted"
  | fuel + 1, buf =>
    match StringEater.eat buf with
    | .error e => .error e
    | .ok (sel, buf1) =>
      if sel = ESC then .ok ([], buf1)
      else
        match readSelectors fuel buf1 with
        | .error e => .error e
        | .ok (sels, buf2) => .ok (sel :: sels, buf2)

/-- The declaration loop of `restore`: Huffman-decode a property token; the
escape token ends the loop, otherwise the NUL-terminated value follows. -/
def readProps (tree : HTree) : Nat → BitBuf → Except String (List (List Nat × List Nat) × BitBuf)
  | 0, _ => .error "Fuel exhausted"
  | fuel + 1, buf =>
    match Puffman.findToken tree buf with
    | .error e => .error e
    | .ok (p, buf1) =>
      if p = ESC then .ok ([], buf1)
      else
        match StringEater.eat buf1 with
        | .error e => .error e
        | .ok (v, buf2) =>
          match readProps tree fuel buf2 with
          | .error e => .error e
          | .ok (ps, buf3) => .ok ((p, v) :: ps, buf3)

/-- The rule text `restore` builds:
`selectors.join(',\n') + ' {\n' + props.map(...).join(';\n') + ';' + '\n}'`
with each property rendered as `'  ' + p + ': ' + v`. -/
def renderRule (selectors : List (List Nat)) (props : List (List Nat × List Nat)) :
    List Nat :=
  List.intercalate [44, 10] selectors ++ [32, 123, 10]
    ++ List.intercalate [59, 10]
        (props.map (fun pv => [32, 32] ++ pv.1 ++ [58, 32] ++ pv.2))
    ++ [59] ++ [10, 125]

/-- The rule loop of a media block in `restore`: an empty selector list ends
the block, otherwise the declarations follow and one rendered rule is
accumulated. -/
def readRules (tree : HTree) : Nat → BitBuf → Except String (List (List Nat) × BitBuf)
  | 0, _ => .error "Fuel exhausted"
  | fuel + 1, buf =>
    match readSelectors (buf.bits.length + 1) buf with
    | .error e => .error e
    | .ok (selectors, buf1) =>
      if selectors = [] then .ok ([], buf1)
      else
        match readProps tree (buf1.bits.length + 1) buf1 with
        | .error e => .error e
        | .ok (props, buf2) =>
          match readRules tree fuel buf2 with
          | .error e => .error e
          | .ok (rules, buf3) => .ok (renderRule selectors props :: rules, buf3)

/-- A media block's rendered text: rules joined by a blank line, wrapped in
`@media ... {` and `}` only when the query string is non-empty (truthy). -/
def renderMedia (media : List Nat) (rules : List (List Nat)) : List Nat :=
  (if media ≠ [] then [64, 109, 101, 100, 105, 97, 32] ++ media ++ [32, 123, 10]
   else [])
    ++ List.intercalate [10, 10] rules
    ++ (if media ≠ [] then [10, 125, 10] else [])

/-- The block loop of `restore`: while bits remain, read a tag; a media block
contributes its rendered text, a raw block its literal contents, the end tag
stops the loop. -/
def restoreBlocks (tree : HTree) : Nat → BitBuf → List (List Nat) →
    Except String (List (List Nat))
  | 0, _, _ => .error "Fuel exhausted"
  | fuel + 1, buf, acc =>
    if buf.hasMore then
      match BlockType.eat buf with
      | .error e => .error e
      | .ok (ty, buf1) =>
        match ty with
        | .media =>
          match StringEater.eat buf1 with
          | .error e => .error e
          | .ok (media, buf2) =>
            match readRules tree (buf2.bits.length + 1) buf2 with
            | .error e => .error e
            | .ok (rules, buf3) =>
                restoreBlocks tree fuel buf3 (acc ++ [renderMedia media rules])
        | .raw =>
          match StringEater.eat buf1 with
          | .error e => .error e
          | .ok (c, buf2) => restoreBlocks tree fuel buf2 (acc ++ [c])
        | .endMarker => .ok acc
    else .ok acc

/-- `restore`: deserialize the Huffman preamble, loop over blocks, join the
rendered block texts with newlines. -/
def restore (buf : BitBuf) : Except String (List Nat) :=
  match Node.unserialize buf with
  | .error e => .error e
  | .ok (tree, buf1) =>
    match restoreBlocks tree (buf1.bits.length + 1) buf1 [] with
    | .error e => .error e
    | .ok blocks => .ok (List.intercalate [10] blocks)

/-- The stylesheet tree of the C1 scenario:
`{rules: [{selectors: ["a"], declarations: [{property: "color", value: "red"}]}]}`. -/
def exampleAst : List TopRule :=
  [TopRule.rule ⟨[[97]], [Declaration.decl [99, 111, 108, 111, 114] [114, 101, 100]]⟩]

set_option maxRecDepth 100000 in
/-- C1: the example stylesheet is grouped into a single empty-query media
block, and encoding it into a fresh stream followed by decoding that stream
yields exactly the text "a {\n  color: red;\n}" — no media wrapper. -/
theorem css_encode_decode_example :
    groupBlocks exampleAst
        = [Block.media []
            [⟨[[97]], [Declaration.decl [99, 111, 108, 111, 114] [114, 101, 100]]⟩]] ∧
    (dump exampleAst ⟨[], 0⟩).bind restore
        = .ok [97, 32, 123, 10, 32, 32, 99, 111, 108, 111, 114, 58, 32,
            114, 101, 100, 59, 10, 125] :=
  ⟨rfl, rfl⟩

/-- The ECMAScript contract for `Array.prototype.sort` with the comparator
`(a, b) => b.occurrences - a.occurrences`: the output is a permutation that
is sorted by descending occurrence count and stable (elements with equal
counts keep their relative order).  Stability and sortedness together are
captured by: the output is sorted, and filtering by any fixed count value
gives the same subsequence as filtering the input. -/
def SortSpec (l out : List HTree) : Prop :=
  List.Sorted (fun a b => HTree.occ b ≤ HTree.occ a) out ∧
  ∀ k, out.filter (fun n => n.occ == k) = l.filter (fun n => n.occ == k)

theorem insertDesc_filter (x : HTree) : ∀ (l : List HTree) (k : Nat),
    (insertDesc x l).filter (fun n => n.occ == k)
      = ((x :: l).filter (fun n => n.occ == k)) := by
  intro l
  induction l with
  | nil => intro k; rfl
  | cons y ys ih =>
      intro k
      unfold insertDesc
      by_cases hxy : y.occ ≤ x.occ
      · rw [if_pos hxy]
      · rw [if_neg hxy]
        have hlt : x.occ < y.occ := by omega
        simp only [List.filter_cons]
        by_cases hy : y.occ = k
        · by_cases hx : x.occ = k
          · exact absurd (hx.trans hy.symm) (by omega)
          · simp only [hy, beq_self_eq_true, if_true, ih k, List.filter_cons,
              show (x.occ == k) = false by simp [hx]]
            simp
        · by_cases hx : x.occ = k
          · simp only [show (y.occ == k) = false by simp [hy], if_false, ih k,
              List.filter_cons, show (x.occ == k) = true by simp [hx]]
            simp [hy]
          · simp only [show (y.occ == k) = false by simp [hy], if_false, ih k,
              List.filter_cons, show (x.occ == k) = false by simp [hx]]
            simp [hy]

theorem insertDesc_mem (x : HTree) : ∀ (l : List HTree) (z : HTree),
    z ∈ insertDesc x l → z = x ∨ z ∈ l := by
  intro l
  induction l with
  | nil => intro z hz; simpa [insertDesc] using hz
  | cons y ys ih =>
      intro z hz
      unfold insertDesc at hz
      by_cases hxy : y.occ ≤ x.occ
      · rw [if_pos hxy] at hz
        rcases List.mem_cons.mp hz with h | h
        · exact Or.inl h
        · exact Or.inr h
      · rw [if_neg hxy] at hz
        rcases List.mem_cons.mp hz with h | h
        · exact Or.inr (by simp [h])
        · rcases ih z h with h2 | h2
          · exact Or.inl h2
          · exact Or.inr (by simp [h2])

theorem insertDesc_sorted (x : HTree) : ∀ (l : List HTree),
    List.Sorted (fun a b => HTree.occ b ≤ HTree.occ a) l →
    List.Sorted (fun a b => HTree.occ b ≤ HTree.occ a) (insertDesc x l) := by
  intro l
  induction l with
  | nil => intro _; simp [insertDesc]
  | cons y ys ih =>
      intro hs
      unfold insertDesc
      by_cases hxy : y.occ ≤ x.occ
      · rw [if_pos hxy]
        refine List.sorted_cons.mpr ⟨?_, hs⟩
        intro b hb
        rcases List.mem_cons.mp hb with rfl | hmem
        · exact hxy
        · exact le_trans (List.rel_of_sorted_cons hs b hmem) hxy
      · rw [if_neg hxy]
        refine List.sorted_cons.mpr ⟨?_, ih (List.Sorted.of_cons hs)⟩
        intro b hb
        rcases insertDesc_mem x ys b hb with rfl | hmem
        · omega
        · exact List.rel_of_sorted_cons hs b hmem

theorem sortDesc_spec : ∀ l : List HTree, SortSpec l (sortDesc l) := by
  intro l
  induction l with
  | nil => exact ⟨by simp [sortDesc], fun k => rfl⟩
  | cons x xs ih =>
      refine ⟨?_, ?_⟩
      · exact insertDesc_sorted x (sortDesc xs) ih.1
      · intro k
        rw [show sortDesc (x :: xs) = insertDesc x (sortDesc xs) from rfl]
        rw [insertDesc_filter x (sortDesc xs) k]
        simp only [List.filter_cons, ih.2 k]

theorem sorted_filter_unique : ∀ (l1 l2 : List HTree),
    List.Sorted (fun a b => HTree.occ b ≤ HTree.occ a) l1 →
    List.Sorted (fun a b => HTree.occ b ≤ HTree.occ a) l2 →
    (∀ k, l1.filter (fun n => n.occ == k) = l2.filter (fun n => n.occ == k)) →
    l1 = l2 := by
  intro l1
  induction l1 with
  | nil =>
      intro l2 _ _ hf
      cases l2 with
      | nil => rfl
      | cons y ys =>
          have h := hf y.occ
          simp only [List.filter_nil, List.filter_cons, beq_self_eq_true,
            if_true] at h
          exact absurd h (by simp)
  | cons x xs ih =>
      intro l2 hs1 hs2 hf
      cases l2 with
      | nil =>
          have h := hf x.occ
          simp only [List.filter_nil, List.filter_cons, beq_self_eq_true,
            if_true] at h
          exact absurd h (by simp)
      | cons y ys =>
          have hocc : x.occ = y.occ := by
            rcases Nat.lt_trichotomy x.occ y.occ with hlt | heq | hgt
            · exfalso
              have hnil : (x :: xs).filter (fun n => n.occ == y.occ) = [] := by
                rw [List.filter_eq_nil_iff]
                intro a ha
                have hle : a.occ ≤ x.occ := by
                  rcases List.mem_cons.mp ha with rfl | hmem
                  · exact le_refl _
                  · exact List.rel_of_sorted_cons hs1 a hmem
                simp only [beq_iff_eq]
                omega
              have h := hf y.occ
              rw [hnil] at h
              simp only [List.filter_cons, beq_self_eq_true, if_true] at h
              exact absurd h.symm (by simp)
            · exact heq
            · exfalso
              have hnil : (y :: ys).filter (fun n => n.occ == x.occ) = [] := by
                rw [List.filter_eq_nil_iff]
                intro a ha
                have hle : a.occ ≤ y.occ := by
                  rcases List.mem_cons.mp ha with rfl | hmem
                  · exact le_refl _
                  · exact List.rel_of_sorted_cons hs2 a hmem
                simp only [beq_iff_eq]
                omega
              have h := hf x.occ
              rw [hnil] at h
              simp only [List.filter_cons, beq_self_eq_true, if_true] at h
              exact absurd h (by simp)
          have hhead := hf x.occ
          simp only [List.filter_cons, beq_self_eq_true, if_true,
            show (y.occ == x.occ) = true by simp [hocc], if_true] at hhead
          have hxy : x = y := (List.cons.injEq _ _ _ _ ▸ hhead).1
          have htail0 : xs.filter (fun n => n.occ == x.occ)
              = ys.filter (fun n => n.occ == x.occ) :=
            (List.cons.injEq _ _ _ _ ▸ hhead).2
          have htails : ∀ k, xs.filter (fun n => n.occ == k)
              = ys.filter (fun n => n.occ == k) := by
            intro k
            by_cases hk : x.occ = k
            · rw [← hk]
              exact htail0
            · have h := hf k
              simp only [List.filter_cons, show (x.occ == k) = false by simp [hk],
                show (y.occ == k) = false by simp [hocc ▸ hk], if_false] at h
              exact h
          rw [hxy, ih ys (List.Sorted.of_cons hs1) (List.Sorted.of_cons hs2) htails]

theorem sortFn_unique (f g : List HTree → List HTree)
    (hf : ∀ l, SortSpec l (f l)) (hg : ∀ l, SortSpec l (g l)) :
    ∀ l, f l = g l := by
  intro l
  exact sorted_filter_unique (f l) (g l) (hf l).1 (hg l).1
    (fun k => ((hf l).2 k).trans ((hg l).2 k).symm)

theorem buildTreeLoopWith_congr (f g : List HTree → List HTree)
    (hfg : ∀ l, f l = g l) : ∀ (fuel : Nat) (base : List HTree),
    Puffman.buildTreeLoopWith f fuel base = Puffman.buildTreeLoopWith g fuel base := by
  intro fuel
  induction fuel with
  | zero => intro base; rfl
  | succ n ih =>
      intro base
      unfold Puffman.buildTreeLoopWith
      rw [hfg base]
      by_cases hb : 1 < base.length
      · rw [if_pos hb, if_pos hb]
        cases (g base).getLast? with
        | none => rfl
        | some l =>
            cases ((g base).dropLast).getLast? with
            | none => rfl
            | some r => exact ih _
      · rw [if_neg hb, if_neg hb]

theorem buildTreeWith_congr (f g : List HTree → List HTree)
    (hfg : ∀ l, f l = g l) (occ : List (List Nat × Nat)) :
    Puffman.buildTreeWith f occ = Puffman.buildTreeWith g occ := by
  unfold Puffman.buildTreeWith
  simp only [buildTreeLoopWith_congr f g hfg]

/-- C9: encoding the same stylesheet tree in two independent sessions
produces identical bit streams.  Frequency collection, block grouping and
emission are pure functions of the tree; the only latitude ECMAScript leaves
the engine is the `sort` call inside `buildTree`, and its contract (sorted by
the comparator, stable) pins the result down — any two contract-satisfying
sorts give byte-identical output. -/
theorem dump_deterministic : ∀ (f g : List HTree → List HTree)
    (ast : List TopRule),
    (∀ l, SortSpec l (f l)) → (∀ l, SortSpec l (g l)) →
    dumpWith f ast ⟨[], 0⟩ = dumpWith g ast ⟨[], 0⟩ := by
  intro f g ast hf hg
  unfold dumpWith
  rw [buildTreeWith_congr f g (sortFn_unique f g hf hg)]

/-- Witness for C9: two different contract-satisfying sort routines (the
stable insertion sort and its double application) encode the example
stylesheet to the same stream. -/
theorem dump_deterministic_witness :
    dumpWith sortDesc exampleAst ⟨[], 0⟩
      = dumpWith (fun l => sortDesc (sortDesc l)) exampleAst ⟨[], 0⟩ :=
  dump_deterministic sortDesc (fun l => sortDesc (sortDesc l)) exampleAst
    sortDesc_spec
    (fun l => ⟨(sortDesc_spec (sortDesc l)).1,
      fun k => ((sortDesc_spec (sortDesc l)).2 k).trans ((sortDesc_spec l).2 k)⟩)
